import Mathlib

/-
Verification of the Budget Chat core (src/bin/03_bchat.rs): the Room actor,
the broadcast filtering done by each session, the per-connection session
state machine, and the line reader.  Rust data structures are embedded
shallowly: the `BTreeMap<usize, String>` membership table becomes a
key-sorted association list, channel sends become explicit message lists,
and the panics caused by `.unwrap()` become `Option.none` results.
-/

set_option autoImplicit false

namespace BChat

/-- Connection ids are process-unique `usize` values; ids stay small in
practice, so plain `Nat` is a faithful model. -/
abbrev UserId := Nat

/-- `LAGGED_TEXT` from the source, as a string. -/
def LAGGED_TEXT : String := "Your connection has lagged and dropped messages.\n"

/-- `WELCOME_TEXT` from the source, as a string. -/
def WELCOME_TEXT : String := "Welcome. Please enter the name you'd like to use.\n"

/-- `REJECT_TEXT` from the source, as a string. -/
def REJECT_TEXT : String := "Your name must consist of one or more alphanumeric characters.\n"

/-- Messages from the `Room` to `Client`s (enum `Msg` in the source). -/
inductive Msg where
  /-- Deliver to every user but `id`. -/
  | All (id : UserId) (text : String)
  /-- Deliver to only user `id`. -/
  | One (id : UserId) (text : String)
deriving DecidableEq

/-- `Client` actions reported to the `Room` (enum `Evt` in the source). -/
inductive Evt where
  | Text (id : UserId) (text : String)
  | Leave (id : UserId)
  | Arrive (id : UserId) (name : String)
deriving DecidableEq

/-! ### The membership table

`Room.users` is a `BTreeMap<usize, String>`: keys unique, iterated in
ascending key order.  We model it as an association list kept sorted by
key through `btInsert`. -/

/-- Membership table: connection id to display name, sorted by id. -/
abbrev Users := List (UserId × String)

/-- `BTreeMap::get`: the value stored at `id`, if any. -/
def btGet : Users → UserId → Option String
  | [], _ => none
  | (k, v) :: rest, id => if id = k then some v else btGet rest id

/-- `BTreeMap::insert`, keeping the list sorted by key (replacing any
existing entry for the key, as the Rust map does). -/
def btInsert : Users → UserId → String → Users
  | [], id, name => [(id, name)]
  | (k, v) :: rest, id, name =>
    if id < k then (id, name) :: (k, v) :: rest
    else if id = k then (id, name) :: rest
    else (k, v) :: btInsert rest id name

/-- `BTreeMap::remove`: the removed value (if the key was present) and the
remaining table. -/
def btRemove : Users → UserId → Option String × Users
  | [], _ => (none, [])
  | (k, v) :: rest, id =>
    if id = k then (some v, rest)
    else
      let (r, rest') := btRemove rest id
      (r, (k, v) :: rest')

/-! ### The Room actor -/

/-- `Room::name_list`: `format!("* Also here: {}\n", names.join(", "))`,
with the names enumerated in the table's (ascending id) order. -/
def name_list (users : Users) : String :=
  "* Also here: " ++ String.intercalate ", " (users.map Prod.snd) ++ "\n"

/-- One iteration of `Room::run` on a single received event.

* The state is the membership table; the returned list holds the messages
  published to the broadcast bus, in publication order.
* `hasSub` says whether the broadcast channel currently has at least one
  subscriber: `broadcast::Sender::send` errors exactly when it has none.
* `none` models a panic of the actor's task: the `.unwrap()` on a missing
  membership entry (`Text`/`Leave`) or on a failed send (`Text`/`Arrive`).
  The `Leave` arm ignores its send result (`let _ = self.blow.send(msg)`). -/
def roomStep (users : Users) (hasSub : Bool) : Evt → Option (Users × List Msg)
  | .Text id text =>
    match btGet users id with
    | none => none
    | some name =>
      let text := "[" ++ name ++ "] " ++ text
      if hasSub then some (users, [.All id text]) else none
  | .Arrive id name =>
    let joins := Msg.All id ("* " ++ name ++ " joins.\n")
    if hasSub then
      let roster := Msg.One id (name_list users)
      some (btInsert users id name, [joins, roster])
    else none
  | .Leave id =>
    match btRemove users id with
    | (none, _) => none
    | (some name, users') =>
      some (users', [.All id ("* " ++ name ++ " leaves.")])

/-- `Room::run` over a finite prefix of the event queue: fold `roomStep`,
accumulating published messages; `none` once any step panics. -/
def roomRun (users : Users) (hasSub : Bool) : List Evt → Option (Users × List Msg)
  | [] => some (users, [])
  | e :: es =>
    match roomStep users hasSub e with
    | none => none
    | some (users', msgs) =>
      match roomRun users' hasSub es with
      | none => none
      | some (users'', rest) => some (users'', msgs ++ rest)

/-! ### UTF-8 decoding (`String::from_utf8` / `String::from_utf8_lossy`)

`Client::get_line` decodes the bytes it read with `String::from_utf8`,
falling back to `String::from_utf8_lossy` on error.  We model both over
`List Nat` (each element a byte value below 256).  The lossy decoder
replaces each maximal subpart of an ill-formed subsequence with one
U+FFFD, skipping exactly `error_len` bytes as Rust's validator reports
them (1 for a bad leading byte or a bad second byte, 2 or 3 when a later
continuation byte is missing), and a truncated sequence at end of input
becomes a single U+FFFD. -/

/-- The Unicode replacement character U+FFFD. -/
def repChar : Char := Char.ofNat 0xFFFD

/-- Decoder state between bytes: either at a character boundary, or inside
a multi-byte sequence with `r` continuation bytes still expected, `lo`/`hi`
the admissible range for the next byte (Rust's validator constrains only
the second byte of a sequence specially; later bytes are plain
continuations), and `acc` the scalar value accumulated so far. -/
inductive Utf8State where
  | start
  | need (r : Nat) (lo hi : Nat) (acc : Nat)

/-- Classify a byte in `start` position, per Rust's UTF-8 validator:
an ASCII character, the begin of a well-formed multi-byte sequence
(with the second-byte ranges `C2..=DF 80..=BF`, `E0 A0..=BF`,
`E1..=EC 80..=BF`, `ED 80..=9F`, `EE..=EF 80..=BF`, `F0 90..=BF`,
`F1..=F3 80..=BF`, `F4 80..=8F`), or an invalid leading byte. -/
inductive StartResult where
  | ascii (c : Char)
  | more (st : Utf8State)
  | bad

/-- The transition out of `start` on byte `b`. -/
def startByte (b : Nat) : StartResult :=
  if b ≤ 0x7F then .ascii (Char.ofNat b)
  else if 0xC2 ≤ b && b ≤ 0xDF then .more (.need 1 0x80 0xBF (b - 0xC0))
  else if b == 0xE0 then .more (.need 2 0xA0 0xBF 0)
  else if 0xE1 ≤ b && b ≤ 0xEC then .more (.need 2 0x80 0xBF (b - 0xE0))
  else if b == 0xED then .more (.need 2 0x80 0x9F (b - 0xE0))
  else if 0xEE ≤ b && b ≤ 0xEF then .more (.need 2 0x80 0xBF (b - 0xE0))
  else if b == 0xF0 then .more (.need 3 0x90 0xBF 0)
  else if 0xF1 ≤ b && b ≤ 0xF3 then .more (.need 3 0x80 0xBF (b - 0xF0))
  else if b == 0xF4 then .more (.need 3 0x80 0x8F (b - 0xF0))
  else .bad

/-- `String::from_utf8_lossy` from an arbitrary decoder state: each maximal
subpart of an ill-formed subsequence becomes one U+FFFD.  A byte that is
invalid in the middle of a sequence ends the subpart *before* it and is
then re-examined as a leading byte, which is exactly Rust's `error_len`
accounting (1 for a bad leading or second byte, 2 or 3 when a later
continuation byte is wrong); a sequence truncated by the end of input
becomes a single U+FFFD. -/
def utf8LossyAux : Utf8State → List Nat → List Char
  | .start, [] => []
  | .need _ _ _ _, [] => [repChar]
  | .start, b :: rest =>
    match startByte b with
    | .ascii c => c :: utf8LossyAux .start rest
    | .more st => utf8LossyAux st rest
    | .bad => repChar :: utf8LossyAux .start rest
  | .need r lo hi acc, b :: rest =>
    if lo ≤ b && b ≤ hi then
      if r = 1 then Char.ofNat (acc * 0x40 + (b - 0x80)) :: utf8LossyAux .start rest
      else utf8LossyAux (.need (r - 1) 0x80 0xBF (acc * 0x40 + (b - 0x80))) rest
    else
      repChar ::
        match startByte b with
        | .ascii c => c :: utf8LossyAux .start rest
        | .more st => utf8LossyAux st rest
        | .bad => repChar :: utf8LossyAux .start rest

/-- `String::from_utf8` from an arbitrary decoder state: `none` on any
ill-formed or truncated sequence.  Same transitions as `utf8LossyAux`. -/
def utf8DecodeAux : Utf8State → List Nat → Option (List Char)
  | .start, [] => some []
  | .need _ _ _ _, [] => none
  | .start, b :: rest =>
    match startByte b with
    | .ascii c => (utf8DecodeAux .start rest).map (c :: ·)
    | .more st => utf8DecodeAux st rest
    | .bad => none
  | .need r lo hi acc, b :: rest =>
    if lo ≤ b && b ≤ hi then
      if r = 1 then
        (utf8DecodeAux .start rest).map (Char.ofNat (acc * 0x40 + (b - 0x80)) :: ·)
      else utf8DecodeAux (.need (r - 1) 0x80 0xBF (acc * 0x40 + (b - 0x80))) rest
    else none

/-- `String::from_utf8_lossy`, as a list of decoded characters. -/
def utf8Lossy (l : List Nat) : List Char := utf8LossyAux .start l

/-- `String::from_utf8`. -/
def utf8Decode (l : List Nat) : Option (List Char) := utf8DecodeAux .start l

/-! ### The line reader -/

/-- Possible results of `Client::get_line` (enum `ClientResult`). -/
inductive ClientResult where
  | Line (s : String)
  | Eof
  | Err (e : String)
deriving DecidableEq

/-- The characters `get_line` works with: `String::from_utf8(new_buff)`,
falling back to `String::from_utf8_lossy` on error. -/
def decodedChars (buf : List Nat) : List Char :=
  match utf8Decode buf with
  | some cs => cs
  | none => utf8Lossy buf

/-- `Client::get_line`, given the bytes that `read_until(b'\n')` returned:
everything up to and including the first newline, or the remaining bytes
at end of stream.  `Ok(0)` becomes `Eof`; transport errors (`ClientResult::Err`)
originate outside this model.

The source checks the *byte* `*line.as_bytes().last().unwrap() != b'\n'`;
since a continuation byte is at least `0x80`, a UTF-8 string's final byte
is `0x0A` exactly when its final character is `'\n'`, so comparing the
last character is faithful.  The `.unwrap()` cannot panic because the
decoding of a nonempty byte list is nonempty; `getLast?` handles the
impossible empty case by appending, which never fires. -/
def get_line (buf : List Nat) : ClientResult :=
  if buf.isEmpty then .Eof
  else
    let chars := decodedChars buf
    let chars := if chars.getLast? ≠ some '\n' then chars ++ ['\n'] else chars
    .Line ⟨chars⟩

/-! ### Name validation -/

/-- Rust `char::is_whitespace`: the Unicode `White_Space` property (the
complete set of 25 code points). -/
def rustIsWhitespace (c : Char) : Bool :=
  let n := c.toNat
  (0x09 ≤ n && n ≤ 0x0D) || n == 0x20 || n == 0x85 || n == 0xA0 ||
  n == 0x1680 || (0x2000 ≤ n && n ≤ 0x200A) || n == 0x2028 || n == 0x2029 ||
  n == 0x202F || n == 0x205F || n == 0x3000

/-- Rust `str::trim`: drop `char::is_whitespace` characters from both ends. -/
def rustTrim (s : String) : String :=
  ⟨((s.data.dropWhile rustIsWhitespace).reverse.dropWhile rustIsWhitespace).reverse⟩

/-- Rust `char::is_alphanumeric`: Unicode `Alphabetic` or general category
`Nd`/`Nl`/`No`.  The model is exact for every code point below `U+0100`
(ASCII alphanumerics; `ª µ º ¹ ² ³ ¼ ½ ¾` and the Latin-1 letters, which
exclude `×` and `÷`) and for `U+FFFD`; code points above `U+00FF` are
mapped to `false`, and no theorem below evaluates the model there. -/
def rustIsAlphanumeric (c : Char) : Bool :=
  let n := c.toNat
  (0x30 ≤ n && n ≤ 0x39) || (0x41 ≤ n && n ≤ 0x5A) || (0x61 ≤ n && n ≤ 0x7A) ||
  n == 0xAA || n == 0xB2 || n == 0xB3 || n == 0xB5 || n == 0xB9 || n == 0xBA ||
  (0xBC ≤ n && n ≤ 0xBE) ||
  (0xC0 ≤ n && n ≤ 0xFF && n != 0xD7 && n != 0xF7)

/-- `name_ok` from the source: a nonzero number of only alphanumeric
characters. -/
def name_ok (name : String) : Bool :=
  if name.data.isEmpty then false
  else name.data.all rustIsAlphanumeric

/-! ### The session state machine (`run_client`) -/

/-- The post-handshake states of a session. -/
inductive SessionState where
  | Active
  | Closing
deriving DecidableEq

/-- What `run_client`'s handshake does, as a function of the first
`get_line` result (the welcome banner was already written): the lines it
writes to the transport, and the name carried by the `Evt::Arrive` it
sends to the Room, if any. -/
structure HandshakeOut where
  writes : List String
  arrive : Option String
deriving DecidableEq

/-- The handshake of `run_client`: trim the first line, validate it; on
failure write `REJECT_TEXT` and close without notifying the Room; on
success (after draining stale broadcast messages) send `Evt::Arrive`.
End of stream or a read error closes with no writes and no event. -/
def runHandshake : ClientResult → HandshakeOut
  | .Line raw =>
    let name := rustTrim raw
    if name_ok name then ⟨[], some name⟩ else ⟨[REJECT_TEXT], none⟩
  | .Eof => ⟨[], none⟩
  | .Err _ => ⟨[], none⟩

/-- Receiver-side filtering in `run_client`'s Active loop: the line the
session writes for a broadcast message, if any (`Msg::All` unless the id
is its own; `Msg::One` only when the id is its own). -/
def clientDeliver (selfId : UserId) : Msg → Option String
  | .All id text => if id ≠ selfId then some text else none
  | .One id text => if id = selfId then some text else none

/-- What the subscription side of the Active loop's `select!` can yield:
a message, a `RecvError::Lagged(n)`, or `RecvError::Closed`. -/
inductive RecvOutcome where
  | msg (m : Msg)
  | lagged (n : Nat)
  | closed
deriving DecidableEq

/-- The Active loop's reaction to one subscription outcome: the resulting
state and the lines written to the transport.  `writeOk` says whether a
write to the socket would succeed; a failed write breaks the loop
(`Closing`).  A lag indication writes `LAGGED_TEXT` and stays `Active`;
a closed bus breaks the loop. -/
def activeOnRecv (selfId : UserId) (writeOk : Bool) : RecvOutcome → SessionState × List String
  | .msg m =>
    match clientDeliver selfId m with
    | some text => if writeOk then (.Active, [text]) else (.Closing, [])
    | none => (.Active, [])
  | .lagged _ => if writeOk then (.Active, [LAGGED_TEXT]) else (.Closing, [])
  | .closed => (.Closing, [])

/-- The Active loop's reaction to one transport-read outcome: the event
sent to the Room (a `Evt::Text` for a complete line) and the resulting
state (`Eof` and read errors break the loop). -/
def activeOnRead (selfId : UserId) : ClientResult → Option Evt × SessionState
  | .Line line => (some (.Text selfId line), .Active)
  | .Eof => (none, .Closing)
  | .Err _ => (none, .Closing)

/-! ### Supporting lemmas -/

/-- A key that `btGet` does not find labels no entry. -/
theorem btGet_none_all {users : Users} {id : UserId} (h : btGet users id = none) :
    users.all (fun p => p.1 != id) = true := by
  induction users with
  | nil => rfl
  | cons q rest ih =>
    obtain ⟨k, v⟩ := q
    simp only [btGet] at h
    split at h
    · exact absurd h (by simp)
    · next hne =>
      simp only [List.all_cons, Bool.and_eq_true, bne_iff_ne]
      exact ⟨fun he => hne he.symm, ih h⟩

/-- The value `btRemove` extracts is the one `btGet` finds. -/
theorem btRemove_fst (users : Users) (id : UserId) :
    (btRemove users id).1 = btGet users id := by
  induction users with
  | nil => rfl
  | cons q rest ih =>
    obtain ⟨k, v⟩ := q
    simp only [btRemove, btGet]
    split
    · simp
    · simpa using ih

/-- Every entry of `btInsert users id name` is the new pair or an old entry. -/
theorem mem_btInsert {users : Users} {id : UserId} {name : String} {x : UserId × String}
    (hx : x ∈ btInsert users id name) : x = (id, name) ∨ x ∈ users := by
  induction users with
  | nil => simpa [btInsert] using hx
  | cons q rest ih =>
    obtain ⟨k, v⟩ := q
    simp only [btInsert] at hx
    split at hx
    · simp only [List.mem_cons] at hx ⊢
      tauto
    · split at hx
      · simp only [List.mem_cons] at hx ⊢
        tauto
      · simp only [List.mem_cons] at hx ⊢
        rcases hx with h | h
        · tauto
        · rcases ih h with h' | h' <;> tauto

/-- `btInsert` keeps the table strictly sorted by id. -/
theorem btInsert_pairwise {users : Users} {id : UserId} {name : String}
    (h : users.Pairwise (fun p q => p.1 < q.1)) :
    (btInsert users id name).Pairwise (fun p q => p.1 < q.1) := by
  induction users with
  | nil => simp [btInsert]
  | cons q rest ih =>
    obtain ⟨k, v⟩ := q
    rw [List.pairwise_cons] at h
    obtain ⟨hk, hrest⟩ := h
    by_cases h1 : id < k
    · simp only [btInsert, if_pos h1]
      rw [List.pairwise_cons]
      refine ⟨?_, List.pairwise_cons.mpr ⟨hk, hrest⟩⟩
      intro x hx
      simp only [List.mem_cons] at hx
      rcases hx with hx | hx
      · rw [hx]
        exact h1
      · exact lt_trans h1 (hk x hx)
    · by_cases h2 : id = k
      · simp only [btInsert, if_neg h1, if_pos h2]
        rw [List.pairwise_cons]
        exact ⟨fun x hx => h2 ▸ hk x hx, hrest⟩
      · simp only [btInsert, if_neg h1, if_neg h2]
        rw [List.pairwise_cons]
        refine ⟨?_, ih hrest⟩
        intro x hx
        rcases mem_btInsert hx with hx' | hx'
        · rw [hx']
          show k < id
          exact Nat.lt_of_le_of_ne (Nat.le_of_not_lt h1) fun he => h2 he.symm
        · exact hk x hx'

/-- ASCII bytes decode to themselves. -/
theorem utf8Decode_ascii {buf : List Nat} (h : ∀ b ∈ buf, b ≤ 0x7F) :
    utf8Decode buf = some (buf.map Char.ofNat) := by
  unfold utf8Decode
  induction buf with
  | nil => rfl
  | cons b rest ih =>
    have hb : b ≤ 0x7F := h b (by simp)
    have hrest := ih fun x hx => h x (by simp [hx])
    simp [utf8DecodeAux, startByte, hb, hrest]

/-- `Char.ofNat` inverts `Char.toNat` on the ASCII range. -/
theorem char_toNat_ofNat_ascii : ∀ n < 128, (Char.ofNat n).toNat = n := by decide

/-- Only byte 10 yields the newline character in the ASCII range. -/
theorem ofNat_ascii_ne_newline {b : Nat} (hb : b ≤ 0x7F) (h10 : b ≠ 10) :
    Char.ofNat b ≠ '\n' := by
  intro hc
  have ht := char_toNat_ofNat_ascii b (by omega)
  rw [hc] at ht
  exact h10 ht.symm

/-- If strict decoding fails, the lossy decoding contains U+FFFD. -/
theorem repChar_mem_utf8LossyAux :
    ∀ (l : List Nat) (st : Utf8State), utf8DecodeAux st l = none →
      repChar ∈ utf8LossyAux st l := by
  intro l
  induction l with
  | nil =>
    intro st h
    cases st with
    | start => exact absurd h (by simp [utf8DecodeAux])
    | need r lo hi acc => simp [utf8LossyAux]
  | cons b rest ih =>
    intro st h
    cases st with
    | start =>
      simp only [utf8DecodeAux] at h
      simp only [utf8LossyAux]
      cases hs : startByte b with
      | ascii c =>
        rw [hs] at h
        simp only [Option.map_eq_none'] at h
        exact List.mem_cons_of_mem _ (ih .start h)
      | more st' =>
        rw [hs] at h
        exact ih st' h
      | bad => exact List.mem_cons_self _ _
    | need r lo hi acc =>
      simp only [utf8DecodeAux] at h
      simp only [utf8LossyAux]
      split at h
      · split at h
        · next hrange hr =>
          simp only [Option.map_eq_none'] at h
          simp only [hrange, if_true, hr, if_pos]
          exact List.mem_cons_of_mem _ (ih .start h)
        · next hrange hr =>
          simp only [hrange, if_true, hr, if_neg, if_false]
          exact ih _ h
      · next hrange =>
        simp only [hrange]
        exact List.mem_cons_self _ _

/-- If strict decoding fails, the lossy decoding contains U+FFFD. -/
theorem repChar_mem_utf8Lossy {l : List Nat} (h : utf8Decode l = none) :
    repChar ∈ utf8Lossy l :=
  repChar_mem_utf8LossyAux l .start h

/-- Prepending to a nonempty list does not change its last element. -/
theorem getLast?_cons_of_ne_nil {α : Type _} {x : α} {l : List α} (h : l ≠ []) :
    (x :: l).getLast? = l.getLast? := by
  cases l with
  | nil => exact absurd rfl h
  | cons y ys => exact List.getLast?_cons_cons

/-- When strict decoding succeeds the lossy decoding agrees with it. -/
theorem utf8DecodeAux_eq_lossy :
    ∀ (st : Utf8State) (l : List Nat) (cs : List Char),
      utf8DecodeAux st l = some cs → utf8LossyAux st l = cs := by
  intro st l
  induction st, l using utf8DecodeAux.induct with
  | case1 =>
    intro cs h
    simp only [utf8DecodeAux, Option.some.injEq] at h
    simpa [utf8LossyAux] using h
  | case2 r lo hi acc =>
    intro cs h
    exact absurd h (by simp [utf8DecodeAux])
  | case3 b rest c hs ih =>
    intro cs h
    simp only [utf8DecodeAux, hs, Option.map_eq_some'] at h
    obtain ⟨cs', hcs', rfl⟩ := h
    simp [utf8LossyAux, hs, ih cs' hcs']
  | case4 b rest st' hs ih =>
    intro cs h
    simp only [utf8DecodeAux, hs] at h
    simp [utf8LossyAux, hs, ih cs h]
  | case5 b rest hs =>
    intro cs h
    exact absurd h (by simp [utf8DecodeAux, hs])
  | case6 lo hi acc b rest hrange ih =>
    intro cs h
    simp only [utf8DecodeAux, hrange, if_true, if_pos, Option.map_eq_some'] at h
    obtain ⟨cs', hcs', rfl⟩ := h
    simp [utf8LossyAux, hrange, ih cs' hcs']
  | case7 r lo hi acc b rest hrange hr ih =>
    intro cs h
    simp only [utf8DecodeAux, hrange, hr, if_true, if_false, if_pos, if_neg] at h
    simp [utf8LossyAux, hrange, hr, ih cs h]
  | case8 r lo hi acc b rest hrange =>
    intro cs h
    exact absurd h (by simp [utf8DecodeAux, hrange])

/-- States the decoder can actually be in after a leading byte: either at
a boundary, or inside a sequence whose accumulated value or second-byte
lower bound already forces the decoded scalar value past the ASCII
controls (in particular past `'\n'`). -/
def stateGood : Utf8State → Prop
  | .start => True
  | .need _ lo _ acc => 1 ≤ acc ∨ 0x90 ≤ lo

/-- `startByte` classifies `b` as ASCII exactly by value. -/
theorem startByte_ascii_eq {b : Nat} {c : Char}
    (h : startByte b = .ascii c) : b ≤ 0x7F ∧ c = Char.ofNat b := by
  unfold startByte at h
  repeat' split at h
  all_goals first
    | (cases h; simp_all)
    | (cases h)

/-- A multi-byte lead always enters a `need` state satisfying
`stateGood`. -/
theorem startByte_more_eq {b : Nat} {st : Utf8State}
    (h : startByte b = .more st) : ∃ r lo hi acc, st = .need r lo hi acc ∧ stateGood st := by
  unfold startByte at h
  repeat' split at h
  all_goals cases h
  all_goals refine ⟨_, _, _, _, rfl, ?_⟩
  all_goals simp_all [stateGood]
  all_goals omega

/-- The lossy decoding of a nonempty byte list is nonempty. -/
theorem utf8LossyAux_ne_nil :
    ∀ (st : Utf8State) (l : List Nat), l ≠ [] → utf8LossyAux st l ≠ [] := by
  intro st l
  induction st, l using utf8LossyAux.induct with
  | case1 => intro h; exact absurd rfl h
  | case2 r lo hi acc => intro _; simp [utf8LossyAux]
  | case3 b rest c hs ih => intro _; simp [utf8LossyAux, hs]
  | case4 b rest st' hs ih =>
    intro _
    simp only [utf8LossyAux, hs]
    cases rest with
    | nil =>
      obtain ⟨r, lo, hi, acc, rfl, _⟩ := startByte_more_eq hs
      simp [utf8LossyAux]
    | cons x xs => exact ih (by simp)
  | case5 b rest hs => intro _; simp [utf8LossyAux, hs]
  | case6 lo hi acc b rest hrange ih =>
    intro _
    simp [utf8LossyAux, hrange]
  | case7 r lo hi acc b rest hrange hr ih =>
    intro _
    simp only [utf8LossyAux, hrange, if_true, if_pos, hr, if_neg, if_false]
    cases rest with
    | nil => simp [utf8LossyAux]
    | cons x xs => exact ih (by simp)
  | case8 r lo hi acc b rest hrange ihs ih =>
    intro _
    simp [utf8LossyAux, hrange]

/-- `Char.ofNat` never yields `'\n'` past the ASCII controls: an invalid
scalar value collapses to NUL, a valid one keeps its value. -/
theorem char_ofNat_ne_newline {n : Nat} (h11 : 11 ≤ n) : Char.ofNat n ≠ '\n' := by
  intro he
  by_cases hv : n.isValidChar
  · have ht : (Char.ofNat n).toNat = n := by
      rw [Char.ofNat, dif_pos hv]
      rfl
    rw [he] at ht
    have h10 : (10 : Nat) = n := ht
    omega
  · rw [Char.ofNat, dif_neg hv] at he
    have h0 := congrArg Char.toNat he
    exact absurd h0 (by decide)

/-- If the final input byte is not `0x0A`, the final lossily decoded
character is not `'\n'` (from any good state). -/
theorem utf8LossyAux_getLast?_ne_newline :
    ∀ (st : Utf8State) (l : List Nat), stateGood st → l.getLast? ≠ some 10 →
      (utf8LossyAux st l).getLast? ≠ some '\n' := by
  intro st l
  induction st, l using utf8LossyAux.induct with
  | case1 => intro _ _; simp [utf8LossyAux]
  | case2 r lo hi acc =>
    intro _ _
    simp only [utf8LossyAux, List.getLast?_singleton]
    intro hc
    exact absurd (Option.some.inj hc) (by decide)
  | case3 b rest c hs ih =>
    intro hgood hlast
    obtain ⟨hb, rfl⟩ := startByte_ascii_eq hs
    simp only [utf8LossyAux, hs]
    cases rest with
    | nil =>
      simp only [utf8LossyAux, List.getLast?_singleton]
      intro hc
      have hb10 : b ≠ 10 := fun he => hlast (by simp [he])
      exact ofNat_ascii_ne_newline hb hb10 (Option.some.inj hc)
    | cons x xs =>
      rw [List.getLast?_cons_cons] at hlast
      rw [getLast?_cons_of_ne_nil (utf8LossyAux_ne_nil _ _ (by simp))]
      exact ih trivial hlast
  | case4 b rest st' hs ih =>
    intro hgood hlast
    obtain ⟨r, lo, hi, acc, rfl, hgood'⟩ := startByte_more_eq hs
    simp only [utf8LossyAux, hs]
    cases rest with
    | nil =>
      simp only [utf8LossyAux, List.getLast?_singleton]
      intro hc
      exact absurd (Option.some.inj hc) (by decide)
    | cons x xs =>
      rw [List.getLast?_cons_cons] at hlast
      exact ih hgood' hlast
  | case5 b rest hs ih =>
    intro hgood hlast
    simp only [utf8LossyAux, hs]
    cases rest with
    | nil =>
      simp only [utf8LossyAux, List.getLast?_singleton]
      intro hc
      exact absurd (Option.some.inj hc) (by decide)
    | cons x xs =>
      rw [List.getLast?_cons_cons] at hlast
      rw [getLast?_cons_of_ne_nil (utf8LossyAux_ne_nil _ _ (by simp))]
      exact ih trivial hlast
  | case6 lo hi acc b rest hrange ih =>
    intro hgood hlast
    simp only [utf8LossyAux, hrange, if_true, if_pos, if_neg]
    have hval : 11 ≤ acc * 0x40 + (b - 0x80) := by
      simp only [Bool.and_eq_true, decide_eq_true_eq] at hrange
      rcases hgood with h1 | h1 <;> omega
    cases rest with
    | nil =>
      simp only [utf8LossyAux, List.getLast?_singleton]
      intro hc
      exact char_ofNat_ne_newline hval (Option.some.inj hc)
    | cons x xs =>
      rw [List.getLast?_cons_cons] at hlast
      rw [getLast?_cons_of_ne_nil (utf8LossyAux_ne_nil _ _ (by simp))]
      exact ih trivial hlast
  | case7 r lo hi acc b rest hrange hr ih =>
    intro hgood hlast
    simp only [utf8LossyAux, hrange, if_true, if_pos, hr, if_neg, if_false]
    cases rest with
    | nil =>
      simp only [utf8LossyAux, List.getLast?_singleton]
      intro hc
      exact absurd (Option.some.inj hc) (by decide)
    | cons x xs =>
      rw [List.getLast?_cons_cons] at hlast
      have hgood' : stateGood (.need (r - 1) 0x80 0xBF (acc * 0x40 + (b - 0x80))) := by
        simp only [Bool.and_eq_true, decide_eq_true_eq] at hrange
        simp only [stateGood]
        rcases hgood with h1 | h1 <;> [left; left] <;> omega
      exact ih hgood' hlast
  | case8 r lo hi acc b rest hrange ihs ih =>
    intro hgood hlast
    cases hs : startByte b with
    | ascii c =>
      obtain ⟨hb, rfl⟩ := startByte_ascii_eq hs
      have hunf : utf8LossyAux (.need r lo hi acc) (b :: rest) =
          repChar :: Char.ofNat b :: utf8LossyAux .start rest := by
        simp [utf8LossyAux, hrange, hs]
      rw [hunf]
      cases rest with
      | nil =>
        simp only [utf8LossyAux, List.getLast?_cons_cons, List.getLast?_singleton]
        intro hc
        have hb10 : b ≠ 10 := fun he => hlast (by simp [he])
        exact ofNat_ascii_ne_newline hb hb10 (Option.some.inj hc)
      | cons x xs =>
        rw [List.getLast?_cons_cons] at hlast
        rw [List.getLast?_cons_cons,
          getLast?_cons_of_ne_nil (utf8LossyAux_ne_nil _ _ (by simp))]
        exact ihs trivial hlast
    | more st' =>
      obtain ⟨r', lo', hi', acc', rfl, hgood'⟩ := startByte_more_eq hs
      have hunf : utf8LossyAux (.need r lo hi acc) (b :: rest) =
          repChar :: utf8LossyAux (.need r' lo' hi' acc') rest := by
        simp [utf8LossyAux, hrange, hs]
      rw [hunf]
      cases rest with
      | nil =>
        simp only [utf8LossyAux, List.getLast?_cons_cons, List.getLast?_singleton]
        intro hc
        exact absurd (Option.some.inj hc) (by decide)
      | cons x xs =>
        rw [List.getLast?_cons_cons] at hlast
        rw [getLast?_cons_of_ne_nil (utf8LossyAux_ne_nil _ _ (by simp))]
        exact ih _ hgood' hlast
    | bad =>
      have hunf : utf8LossyAux (.need r lo hi acc) (b :: rest) =
          repChar :: repChar :: utf8LossyAux .start rest := by
        simp [utf8LossyAux, hrange, hs]
      rw [hunf]
      cases rest with
      | nil =>
        simp only [utf8LossyAux, List.getLast?_cons_cons, List.getLast?_singleton]
        intro hc
        exact absurd (Option.some.inj hc) (by decide)
      | cons x xs =>
        rw [List.getLast?_cons_cons] at hlast
        rw [List.getLast?_cons_cons,
          getLast?_cons_of_ne_nil (utf8LossyAux_ne_nil _ _ (by simp))]
        exact ihs trivial hlast

/-- Modelled from the spec: a roster line listing the given names in join
order (the order in which their arrivals were processed), used only to
compare the spec's wording against the code's `name_list`. -/
def specRosterLine (names : List String) : String :=
  "* Also here: " ++ String.intercalate ", " names ++ "\n"

/-! ### The claims -/

/-- C1, counterexample to "in join order": process `Arrive(2, "B")`, then
`Arrive(1, "A")`, then `Arrive(3, "C")`.  The join order of the members
preceding client 3 is `["B", "A"]`, but the roster sent to client 3 is
`"* Also here: A, B\n"` — the `BTreeMap` enumerates ascending by id, not
by join order. -/
theorem roster_not_join_order :
    roomRun [] true [.Arrive 2 "B", .Arrive 1 "A", .Arrive 3 "C"] =
      some ([(1, "A"), (2, "B"), (3, "C")],
        [.All 2 "* B joins.\n", .One 2 "* Also here: \n",
         .All 1 "* A joins.\n", .One 1 "* Also here: B\n",
         .All 3 "* C joins.\n", .One 3 "* Also here: A, B\n"]) ∧
    specRosterLine ["B", "A"] = "* Also here: B, A\n" ∧
    decide (Msg.One 3 "* Also here: A, B\n" = Msg.One 3 (specRosterLine ["B", "A"])) = false := by
  decide

/-- C1 (amended): processing `Arrive(id, name)` with a fresh id first
publishes the joins line tagged all-but-`id`, then the roster for `id`
alone, computed from the table *before* the new name is inserted — so the
roster lists exactly the previously registered entries, in ascending id
order (the table's enumeration order), each exactly once, and contains no
entry of the arriving id; insertion happens only afterwards and keeps the
table strictly sorted. -/
theorem arrive_roster_before_insert (users : Users) (id : UserId) (name : String)
    (hid : btGet users id = none)
    (hsorted : users.Pairwise (fun p q => p.1 < q.1)) :
    roomStep users true (.Arrive id name) =
      some (btInsert users id name,
        [.All id ("* " ++ name ++ " joins.\n"), .One id (name_list users)]) ∧
    name_list users =
      "* Also here: " ++ String.intercalate ", " (users.map Prod.snd) ++ "\n" ∧
    users.all (fun p => p.1 != id) = true ∧
    (btInsert users id name).Pairwise (fun p q => p.1 < q.1) :=
  ⟨rfl, rfl, btGet_none_all hid, btInsert_pairwise hsorted⟩

/-- Witness for `arrive_roster_before_insert` at a concrete table. -/
theorem arrive_roster_before_insert_witness :
    roomStep [(1, "A")] true (.Arrive 2 "B") =
      some (btInsert [(1, "A")] 2 "B",
        [.All 2 ("* " ++ "B" ++ " joins.\n"), .One 2 (name_list [(1, "A")])]) ∧
    name_list [(1, "A")] =
      "* Also here: " ++ String.intercalate ", " (([((1 : UserId), "A")]).map Prod.snd) ++ "\n" ∧
    ([((1 : UserId), "A")] : Users).all (fun p => p.1 != 2) = true ∧
    (btInsert [(1, "A")] 2 "B").Pairwise (fun p q => p.1 < q.1) :=
  arrive_roster_before_insert [(1, "A")] 2 "B" (by decide) (by decide)

/-- C2: a `Text(id, line)` event for a registered name `N` publishes the
single all-but-`id` message `"[N] line"` (the original line, terminator
included, is kept verbatim), and a subscribing session with id `sid`
writes it exactly when `sid ≠ id` — the sender never receives its own
message back. -/
theorem text_broadcast_excludes_sender (users : Users) (id sid : UserId)
    (N line : String) (h : btGet users id = some N) :
    roomStep users true (.Text id line) =
      some (users, [.All id ("[" ++ N ++ "] " ++ line)]) ∧
    clientDeliver sid (.All id ("[" ++ N ++ "] " ++ line)) =
      (if sid = id then none else some ("[" ++ N ++ "] " ++ line)) ∧
    activeOnRecv sid true (.msg (.All id ("[" ++ N ++ "] " ++ line))) =
      (.Active, if sid = id then [] else ["[" ++ N ++ "] " ++ line]) := by
  refine ⟨by simp [roomStep, h], ?_, ?_⟩
  · by_cases hs : sid = id
    · simp [clientDeliver, hs]
    · have hne : id ≠ sid := fun he => hs he.symm
      simp [clientDeliver, hs, hne]
  · by_cases hs : sid = id
    · simp [activeOnRecv, clientDeliver, hs]
    · have hne : id ≠ sid := fun he => hs he.symm
      simp [activeOnRecv, clientDeliver, hs, hne]

/-- Witness for `text_broadcast_excludes_sender`: Alice's line is relayed
to Bob's session but not to her own. -/
theorem text_broadcast_excludes_sender_witness :
    roomStep [(0, "Alice"), (7, "Bob")] true (.Text 0 "hey\n") =
      some ([(0, "Alice"), (7, "Bob")], [.All 0 ("[" ++ "Alice" ++ "] " ++ "hey\n")]) ∧
    clientDeliver 7 (.All 0 ("[" ++ "Alice" ++ "] " ++ "hey\n")) =
      (if (7 : UserId) = 0 then none else some ("[" ++ "Alice" ++ "] " ++ "hey\n")) ∧
    activeOnRecv 7 true (.msg (.All 0 ("[" ++ "Alice" ++ "] " ++ "hey\n"))) =
      (.Active, if (7 : UserId) = 0 then [] else ["[" ++ "Alice" ++ "] " ++ "hey\n"]) :=
  text_broadcast_excludes_sender [(0, "Alice"), (7, "Bob")] 0 7 "Alice" "hey\n" (by decide)

/-- C3, counterexample to "any non-ASCII-alphanumeric character is always
rejected": `é` (U+00E9) is not an ASCII alphanumeric, yet the name `"é"`
is accepted — Rust's `char::is_alphanumeric` is Unicode-wide. -/
theorem unicode_name_accepted :
    runHandshake (.Line ⟨[Char.ofNat 0xE9, '\n']⟩) = ⟨[], some ⟨[Char.ofNat 0xE9]⟩⟩ ∧
    (Char.ofNat 0xE9).isAlphanum = false := by
  decide

/-- C3 (amended): the session accepts the first line exactly when its
trimmed form is nonempty and every character is Unicode-alphanumeric
(Rust's `char::is_alphanumeric`); on ASCII characters that predicate
coincides with ASCII-alphanumeric, so names containing spaces,
punctuation or control characters are rejected, while non-ASCII Unicode
alphanumerics are accepted. -/
theorem name_validation (raw : String) (c : Char) (hc : c.toNat ≤ 0x7F) :
    runHandshake (.Line raw) =
      (if name_ok (rustTrim raw) then ⟨[], some (rustTrim raw)⟩
       else ⟨[REJECT_TEXT], none⟩) ∧
    name_ok (rustTrim raw) =
      (!(rustTrim raw).data.isEmpty && (rustTrim raw).data.all rustIsAlphanumeric) ∧
    rustIsAlphanumeric c = c.isAlphanum := by
  refine ⟨rfl, ?_, ?_⟩
  · cases h : (rustTrim raw).data.isEmpty <;> simp [name_ok, h]
  · have hall : ∀ n < 128, rustIsAlphanumeric (Char.ofNat n) = (Char.ofNat n).isAlphanum := by
      decide
    have hc' := hall c.toNat (by omega)
    rwa [Char.ofNat_toNat] at hc'

/-- Witness for `name_validation` on the name line `" bob1 \n"`. -/
theorem name_validation_witness :
    runHandshake (.Line " bob1 \n") =
      (if name_ok (rustTrim " bob1 \n") then ⟨[], some (rustTrim " bob1 \n")⟩
       else ⟨[REJECT_TEXT], none⟩) ∧
    name_ok (rustTrim " bob1 \n") =
      (!(rustTrim " bob1 \n").data.isEmpty &&
        (rustTrim " bob1 \n").data.all rustIsAlphanumeric) ∧
    rustIsAlphanumeric 'b' = 'b'.isAlphanum :=
  name_validation " bob1 \n" 'b' (by decide)

/-- C4: the departure broadcast is *not* newline-terminated: removing
Alice publishes the all-but-1 message `"* Alice leaves."`, whose last
character is `'.'`, unlike the joins line and the roster line, which do
end in a newline.  Evaluation of the code at the failing input. -/
theorem leaves_line_lacks_newline :
    roomStep [(1, "Alice"), (2, "Bob")] true (.Leave 1) =
      some ([(2, "Bob")], [.All 1 "* Alice leaves."]) ∧
    ("* Alice leaves." : String).data.getLast? = some '.' ∧
    ("* " ++ "Alice" ++ " joins.\n" : String).data.getLast? = some '\n' ∧
    (name_list [(2, "Bob")]).data.getLast? = some '\n' ∧
    clientDeliver 2 (.All 1 "* Alice leaves.") = some "* Alice leaves." := by
  decide

/-- C5: a `Text` or `Leave` event whose id is not in the membership table
is fatal to the actor's step — the `.unwrap()` panics before anything is
published, nothing is silently ignored, and no table is produced. -/
theorem unknown_id_fatal (users : Users) (hasSub : Bool) (id : UserId)
    (line : String) (h : btGet users id = none) :
    roomStep users hasSub (.Text id line) = none ∧
    roomStep users hasSub (.Leave id) = none := by
  constructor
  · simp [roomStep, h]
  · have hr : (btRemove users id).1 = none := by rw [btRemove_fst]; exact h
    rcases hb : btRemove users id with ⟨r, u'⟩
    rw [hb] at hr
    simp only at hr
    simp [roomStep, hb, hr]

/-- Witness for `unknown_id_fatal`: id 9 was never registered. -/
theorem unknown_id_fatal_witness :
    roomStep [(3, "Cy")] true (.Text 9 "hi\n") = none ∧
    roomStep [(3, "Cy")] true (.Leave 9) = none :=
  unknown_id_fatal [(3, "Cy")] true 9 "hi\n" (by decide)

/-- C6: when the trimmed first line fails validation the session writes
exactly the fixed rejection line and sends no event at all — no
`Arrive`, hence (the room processing nothing from this connection) the
membership table is unchanged and no joins broadcast is published. -/
theorem invalid_name_rejected (raw : String) (users : Users)
    (h : name_ok (rustTrim raw) = false) :
    runHandshake (.Line raw) = ⟨[REJECT_TEXT], none⟩ ∧
    roomRun users true [] = some (users, []) :=
  ⟨by simp [runHandshake, h], rfl⟩

/-- Witness for `invalid_name_rejected` on a name with spaces and
punctuation. -/
theorem invalid_name_rejected_witness :
    runHandshake (.Line " bad name!\n") = ⟨[REJECT_TEXT], none⟩ ∧
    roomRun [(4, "Dee")] true [] = some ([(4, "Dee")], []) :=
  invalid_name_rejected " bad name!\n" [(4, "Dee")] (by decide)

/-- C7, counterexample to "a publish finding no subscriber is a no-op for
every event": with no live subscriber, the `.unwrap()` on the send makes
a `Text` event (and likewise an `Arrive`) fatal to the actor instead of a
no-op success. -/
theorem empty_broadcast_fatal_for_text_and_arrive :
    roomStep [(0, "A")] false (.Text 0 "hi\n") = none ∧
    roomStep [] false (.Arrive 1 "B") = none := by
  decide

/-- C7 (amended): only the `Leave` arm tolerates a publish that finds no
live subscriber (`let _ = self.blow.send(msg)`): the departure is still
processed and the table updated; for `Text` and `Arrive` the failed send
is fatal to the actor. -/
theorem empty_broadcast_only_leave_tolerated (users : Users) (id : UserId)
    (name line : String) (h : btGet users id = some name) :
    roomStep users false (.Leave id) =
      some ((btRemove users id).2, [.All id ("* " ++ name ++ " leaves.")]) ∧
    roomStep users false (.Text id line) = none ∧
    roomStep users false (.Arrive id name) = none := by
  refine ⟨?_, by simp [roomStep, h], rfl⟩
  have hr : (btRemove users id).1 = some name := by rw [btRemove_fst]; exact h
  rcases hb : btRemove users id with ⟨r, u'⟩
  rw [hb] at hr
  simp only at hr
  simp [roomStep, hb, hr]

/-- Witness for `empty_broadcast_only_leave_tolerated`: the last member
leaves an otherwise busy table. -/
theorem empty_broadcast_only_leave_tolerated_witness :
    roomStep [(0, "A"), (5, "E")] false (.Leave 5) =
      some ((btRemove [(0, "A"), (5, "E")] 5).2,
        [.All 5 ("* " ++ "E" ++ " leaves.")]) ∧
    roomStep [(0, "A"), (5, "E")] false (.Text 5 "hi\n") = none ∧
    roomStep [(0, "A"), (5, "E")] false (.Arrive 5 "E") = none :=
  empty_broadcast_only_leave_tolerated [(0, "A"), (5, "E")] 5 "E" "hi\n" (by decide)

/-- C8: a lag indication makes the session write the fixed warning line
and stay `Active`; it transitions to `Closing` only when that write
itself fails, and an ordinary message never moves an `Active` session
with a working transport out of `Active`. -/
theorem lag_warns_and_stays_active (id : UserId) (n : Nat) (m : Msg) :
    activeOnRecv id true (.lagged n) = (.Active, [LAGGED_TEXT]) ∧
    activeOnRecv id false (.lagged n) = (.Closing, []) ∧
    (activeOnRecv id true (.msg m)).1 = .Active := by
  refine ⟨rfl, rfl, ?_⟩
  cases m with
  | All i t =>
    simp only [activeOnRecv, clientDeliver]
    split <;> rfl
  | One i t =>
    simp only [activeOnRecv, clientDeliver]
    split <;> rfl

/-- Witness for `lag_warns_and_stays_active`. -/
theorem lag_warns_and_stays_active_witness :
    activeOnRecv 3 true (.lagged 5) = (.Active, [LAGGED_TEXT]) ∧
    activeOnRecv 3 false (.lagged 5) = (.Closing, []) ∧
    (activeOnRecv 3 true (.msg (.All 1 "x\n"))).1 = .Active :=
  lag_warns_and_stays_active 3 5 (.All 1 "x\n")

/-- Does a `ClientResult` carry a complete line? -/
def isLine : ClientResult → Bool
  | .Line _ => true
  | _ => false

/-- C9: a nonempty final chunk with no trailing newline byte comes back
from `get_line` as the decoded sequence with a newline appended (and on
ASCII bytes the decoded sequence is exactly the input bytes); every
`Line` result of `get_line` ends in a newline; and the Active loop turns
any `Line` into a `Text(id, line)` event for the room. -/
theorem final_line_gets_newline (buf : List Nat) (s : String) (id : UserId) :
    (buf ≠ [] → buf.getLast? ≠ some 10 →
      get_line buf = .Line ⟨decodedChars buf ++ ['\n']⟩) ∧
    ((∀ b ∈ buf, b ≤ 0x7F) → decodedChars buf = buf.map Char.ofNat) ∧
    (get_line buf = .Line s → s.data.getLast? = some '\n') ∧
    (get_line buf = .Line s → activeOnRead id (.Line s) = (some (.Text id s), .Active)) := by
  refine ⟨?_, ?_, ?_, fun _ => rfl⟩
  · intro hne hlast
    have hemp : buf.isEmpty = false := by
      cases buf with
      | nil => exact absurd rfl hne
      | cons b rest => rfl
    have hlastc : (decodedChars buf).getLast? ≠ some '\n' := by
      unfold decodedChars
      cases hd : utf8Decode buf with
      | none => exact utf8LossyAux_getLast?_ne_newline .start buf trivial hlast
      | some cs =>
        rw [← utf8DecodeAux_eq_lossy .start buf cs hd]
        exact utf8LossyAux_getLast?_ne_newline .start buf trivial hlast
    simp only [get_line, hemp, Bool.false_eq_true, if_false]
    rw [if_pos hlastc]
  · intro hascii
    simp [decodedChars, utf8Decode_ascii hascii]
  · intro h
    simp only [get_line] at h
    split at h
    · exact absurd h (by simp)
    · split at h
      · next hcond =>
        rw [ClientResult.Line.injEq] at h
        rw [← h]
        exact List.getLast?_concat _
      · next hcond =>
        rw [ClientResult.Line.injEq] at h
        rw [← h]
        simpa using hcond

/-- Witness for `final_line_gets_newline` on the chunk `"hi"` (no
terminator). -/
theorem final_line_gets_newline_witness :
    get_line [104, 105] = .Line ⟨decodedChars [104, 105] ++ ['\n']⟩ ∧
    decodedChars [104, 105] = [(104 : Nat), 105].map Char.ofNat ∧
    ("hi\n" : String).data.getLast? = some '\n' ∧
    activeOnRead 7 (.Line "hi\n") = (some (.Text 7 "hi\n"), .Active) := by
  have h := final_line_gets_newline [104, 105] "hi\n" 7
  exact ⟨h.1 (by decide) (by decide), h.2.1 (by decide), h.2.2.1 (by decide), h.2.2.2 (by decide)⟩

/-- C10: `get_line` is total over arbitrary bytes — every nonempty chunk
yields a `Line`, never an error; when strict UTF-8 decoding fails the
lossy decoding substitutes U+FFFD; concretely, the chunk
`FF 'b' 'o' 'b' '\n'` becomes the line `"�{}bob\n"`, which as a name
line is rejected (U+FFFD is not alphanumeric) and as a chat line is still
broadcast lossily. -/
theorem get_line_total_lossy (buf : List Nat) (hne : buf ≠ []) :
    isLine (get_line buf) = true ∧
    (utf8Decode buf = none → repChar ∈ utf8Lossy buf) ∧
    get_line [0xFF, 0x62, 0x6F, 0x62, 0x0A] =
      .Line ⟨[repChar, 'b', 'o', 'b', '\n']⟩ ∧
    runHandshake (.Line ⟨[repChar, 'b', 'o', 'b', '\n']⟩) = ⟨[REJECT_TEXT], none⟩ ∧
    rustIsAlphanumeric repChar = false ∧
    roomStep [(0, "A"), (1, "B")] true (.Text 0 ⟨[repChar, '\n']⟩) =
      some ([(0, "A"), (1, "B")],
        [.All 0 ("[" ++ "A" ++ "] " ++ ⟨[repChar, '\n']⟩)]) := by
  refine ⟨?_, fun h => repChar_mem_utf8Lossy h, by decide, by decide, by decide, by decide⟩
  have hemp : buf.isEmpty = false := by
    cases buf with
    | nil => exact absurd rfl hne
    | cons b rest => rfl
  simp only [get_line, hemp, Bool.false_eq_true, if_false]
  split <;> rfl

/-- Witness for `get_line_total_lossy` on the lone invalid byte `FF`. -/
theorem get_line_total_lossy_witness :
    isLine (get_line [0xFF]) = true ∧ repChar ∈ utf8Lossy [0xFF] := by
  have h := get_line_total_lossy [0xFF] (by decide)
  exact ⟨h.1, h.2.1 (by decide)⟩

end BChat
